import Mathlib

/-!
Verification development for the plugin download-statistics extraction
pipelines of this repository.

The repository contains two extraction scripts and one rendering script:

* `extract-plugin-stats.js` (the "strict" variant): collects one raw data
  point per commit of the stats file, sorts them by timestamp descending,
  filters anomalies by comparing each point against both raw neighbours,
  and emits a timestamp-keyed history with a daily-growth figure.
* the unnamed simple variant (`part_000`): walks commits newest to oldest,
  deduplicates by calendar day, filters anomalies with a running
  `lastValidDownloads` floor, and emits a date-sorted array.
* `generate-download-chart.js`: computes a daily growth-rate series and its
  7-point and 30-point trailing rolling averages.

Embedding conventions:

* JavaScript numbers are idealised as exact integers (`Int`) and exact
  rationals (`ℚ`) where the scripts divide; `Math.round` is the
  half-toward-positive-infinity rounding `⌊q + 1/2⌋` that JavaScript uses.
* A calendar day (the `YYYY-MM-DD` prefix of `toISOString`) is represented
  by its day index `⌊timestampMs / 86400000⌋`; the scripts only compare
  dates for equality and order them via `new Date`, and day indices are in
  order-preserving bijection with the date strings.
* JSON objects are association lists in key-iteration order; JavaScript
  objects cannot carry a duplicate key.
* `git show` / `JSON.parse` failures, which both scripts catch per commit,
  are modelled by an explicit `FetchResult.err` outcome.
-/

/-- A JSON scalar value as it occurs in a plugin record: a number (download
counters) or a string (the reserved `updated` field). -/
inductive JVal where
  | num (n : Int)
  | str (s : String)
deriving DecidableEq

/-- A plugin's record inside one snapshot of the stats file: the JSON
object's key/value pairs, in iteration order. -/
abbrev PluginRecord := List (String × JVal)

/-- One commit touching the stats file: revision hash and timestamp in
milliseconds (the scripts multiply the unix seconds by 1000). -/
structure Commit where
  hash : String
  timestamp : Int
deriving DecidableEq

/-- The outcome of fetching and parsing the stats file at one commit,
restricted to the plugin being extracted: the fetch or parse may fail
(`err`, caught and logged by both scripts), or the parsed snapshot may or
may not contain the plugin's key. -/
inductive FetchResult where
  | err : FetchResult
  | parsed : Option PluginRecord → FetchResult
deriving DecidableEq

/-- JavaScript `String.prototype.endsWith`: the suffix test used by the
strict variant's beta-release exclusion `key.endsWith("-beta")`. -/
def jsEndsWith (s suffix : String) : Bool :=
  suffix.data.isSuffixOf s.data

/-- The calendar day of a millisecond timestamp, as a day index: the
`YYYY-MM-DD` prefix of `new Date(ts).toISOString()` determines and is
determined by `⌊ts / 86400000⌋` (floor division, matching UTC day
truncation also for pre-epoch timestamps). -/
def dayOf (ts : Int) : Int :=
  Int.fdiv ts 86400000

/-- The download counter both scripts read as `pluginData.downloads || 0`:
0 when the field is absent, otherwise the numeric value (for a number `n`,
`n || 0` is `n` — also when `n = 0`, since then both sides are 0).  A
non-numeric `downloads` value is outside the data model (§3 of the spec:
`downloads : integer ≥ 0`) and is mapped to the default as well. -/
def jsDownloads (pd : PluginRecord) : Int :=
  match pd.lookup "downloads" with
  | some (.num n) => n
  | _ => 0

/-- Version-map extraction of the strict variant: the loop over the plugin
record's keys that `continue`s on the reserved keys `downloads` and
`updated` and on keys ending in `-beta`, and copies every other key. -/
def versionsStrict (pd : PluginRecord) : PluginRecord :=
  pd.filter fun kv =>
    !(kv.1 == "downloads") && !(kv.1 == "updated") && !(jsEndsWith kv.1 "-beta")

/-- Version-map extraction of the simple variant:
`Object.keys(pluginData).filter(key => key !== "downloads" && key !== "updated")`
followed by a `reduce` that copies each kept key's value. -/
def versionsInclusive (pd : PluginRecord) : PluginRecord :=
  pd.filter fun kv =>
    !(kv.1 == "downloads") && !(kv.1 == "updated")

/-- A raw per-commit data point of the strict variant (`rawData` element):
hash, timestamp, calendar day, download counter, and filtered version map. -/
structure RawDataPoint where
  hash : String
  timestamp : Int
  date : Int
  downloads : Int
  versions : PluginRecord
deriving DecidableEq

instance : Inhabited RawDataPoint :=
  ⟨{ hash := "", timestamp := 0, date := 0, downloads := 0, versions := [] }⟩

/-- The raw data point the strict variant builds for one commit. -/
def mkRawPoint (c : Commit) (pd : PluginRecord) : RawDataPoint :=
  { hash := c.hash
    timestamp := c.timestamp
    date := dayOf c.timestamp
    downloads := jsDownloads pd
    versions := versionsStrict pd }

/-- Phase one of the strict variant: the commit loop that collects
`rawData`.  A fetch/parse error is caught and the commit skipped; a
snapshot without the plugin key `break`s out of the loop (no older commit
is examined); otherwise a raw data point is pushed. -/
def extractLoop : List (Commit × FetchResult) → List RawDataPoint
  | [] => []
  | (_, .err) :: rest => extractLoop rest
  | (_, .parsed none) :: _ => []
  | (c, .parsed (some pd)) :: rest => mkRawPoint c pd :: extractLoop rest

/-- A history entry of the simple variant (`history` element): calendar
day, hash, download counter, and inclusive version map. -/
structure HistoryEntry where
  date : Int
  hash : String
  downloads : Int
  versions : PluginRecord
deriving DecidableEq

instance : Inhabited HistoryEntry :=
  ⟨{ date := 0, hash := "", downloads := 0, versions := [] }⟩

/-- The entry the simple variant builds for one commit. -/
def mkEntry (c : Commit) (pd : PluginRecord) : HistoryEntry :=
  { date := dayOf c.timestamp
    hash := c.hash
    downloads := jsDownloads pd
    versions := versionsInclusive pd }

/-- The simple variant's loop state: the accumulated history plus the
`lastValidDownloads` floor and the `foundFirstEntry` flag (initial values
`[]`, `0`, `false`). -/
structure SeqState where
  history : List HistoryEntry := []
  lastValidDownloads : Int := 0
  foundFirstEntry : Bool := false
deriving DecidableEq

/-- One step of the simple variant's sequential anomaly filter: the first
entry is accepted unconditionally and seeds `lastValidDownloads`; a later
entry is skipped when `downloads > lastValidDownloads` and otherwise
accepted, updating the floor. -/
def seqStep (s : SeqState) (e : HistoryEntry) : SeqState :=
  if s.foundFirstEntry = false then
    { history := s.history ++ [e], lastValidDownloads := e.downloads,
      foundFirstEntry := true }
  else if s.lastValidDownloads < e.downloads then
    s
  else
    { history := s.history ++ [e], lastValidDownloads := e.downloads,
      foundFirstEntry := s.foundFirstEntry }

/-- One step of the simple variant's commit processing: the day-level
deduplication (skip when the date already occurs in the history) in front
of the sequential filter step. -/
def part0Step (s : SeqState) (e : HistoryEntry) : SeqState :=
  if s.history.any (fun old => old.date == e.date) then s else seqStep s e

/-- The simple variant's commit loop: errors are caught and skipped, a
snapshot without the plugin key stops the loop, every other commit runs
one deduplication-plus-filter step. -/
def part0Loop (s : SeqState) : List (Commit × FetchResult) → SeqState
  | [] => s
  | (_, .err) :: rest => part0Loop s rest
  | (_, .parsed none) :: _ => s
  | (c, .parsed (some pd)) :: rest => part0Loop (part0Step s (mkEntry c pd)) rest

/-- The simple variant's accumulated history for a commit list. -/
def part0History (cs : List (Commit × FetchResult)) : List HistoryEntry :=
  (part0Loop {} cs).history

/-- The sequential anomaly filter in isolation (the spec's §4.2 sequential
policy), applied to entries in processing order (newest first): a fold of
`seqStep` from the initial state. -/
def seqFilter (es : List HistoryEntry) : List HistoryEntry :=
  (es.foldl seqStep {}).history

/-- Insertion into a list that is sorted ascending by an integer key. -/
def insertKey (key : α → Int) (a : α) : List α → List α
  | [] => [a]
  | b :: l => if key a ≤ key b then a :: b :: l else b :: insertKey key a l

/-- Sorting by an integer key, ascending: models a JavaScript
`sort((a, b) => key(a) - key(b))` call (only the ordering of the result is
relied upon). -/
def sortByKey (key : α → Int) : List α → List α
  | [] => []
  | a :: l => insertKey key a (sortByKey key l)

/-- Sorting by an integer key, descending: models
`sort((a, b) => key(b) - key(a))`. -/
def sortByKeyDesc (key : α → Int) (l : List α) : List α :=
  sortByKey (fun a => -(key a)) l

/-- The simple variant's final output: the history sorted ascending by
date (`history.sort((a, b) => new Date(a.date) - new Date(b.date))`). -/
def part0Output (cs : List (Commit × FetchResult)) : List HistoryEntry :=
  sortByKey (fun e => e.date) (part0History cs)

/-- The validity test of the strict variant's anomaly filter for one point,
given the downloads of the raw newer neighbour and of the raw older
neighbour (when they exist): `isValid` starts `true`, is cleared when the
point's downloads exceed the newer neighbour's, and is cleared when they
are below the older neighbour's. -/
def neighborValid (prev : Option Int) (cur : Int) (next : Option Int) : Bool :=
  (match prev with
   | none => true
   | some d => !decide (d < cur)) &&
  (match next with
   | none => true
   | some d => !decide (cur < d))

/-- The strict variant's anomaly-filter loop over `rawData`, carrying the
downloads of the previous raw point (the raw array is indexed directly, so
a rejection never changes any neighbour). -/
def neighborFilterAux (prev : Option Int) : List RawDataPoint → List RawDataPoint
  | [] => []
  | p :: rest =>
    if neighborValid prev p.downloads ((rest.head?).map fun q => q.downloads) then
      p :: neighborFilterAux (some p.downloads) rest
    else
      neighborFilterAux (some p.downloads) rest

/-- The strict variant's anomaly filter (`validData` construction) on the
timestamp-descending raw series. -/
def neighborFilter (raw : List RawDataPoint) : List RawDataPoint :=
  neighborFilterAux none raw

/-- JavaScript `Math.round`: round half toward positive infinity. -/
def jsRound (q : ℚ) : Int :=
  ⌊q + 1 / 2⌋

/-- The value of the strict variant's timestamp-keyed history: calendar
day, and a data object holding downloads, the daily growth figure, and the
version counters. -/
structure GrowthEntry where
  date : Int
  downloads : Int
  dailyGrowth : Int
  versions : PluginRecord
deriving DecidableEq

/-- The strict variant's history loop after its first (oldest) iteration:
`previousDownloads`/`previousTimestamp` hold the preceding point's fields,
`daysDifference` is the elapsed time in days, and the growth figure is
`Math.round(downloadDifference / daysDifference)` when `daysDifference` is
positive and 0 otherwise. -/
def buildHistoryAux (prevDownloads prevTimestamp : Int) :
    List RawDataPoint → List (Int × GrowthEntry)
  | [] => []
  | p :: rest =>
    let daysDifference : ℚ :=
      ((p.timestamp - prevTimestamp : Int) : ℚ) / (1000 * 60 * 60 * 24)
    let downloadDifference : ℚ := ((p.downloads - prevDownloads : Int) : ℚ)
    let dailyGrowth : Int :=
      if 0 < daysDifference then jsRound (downloadDifference / daysDifference)
      else 0
    (p.timestamp,
      { date := p.date, downloads := p.downloads, dailyGrowth := dailyGrowth,
        versions := p.versions }) ::
      buildHistoryAux p.downloads p.timestamp rest

/-- The strict variant's third phase on the validated points listed oldest
first: the first (oldest) point's growth figure is its raw download count
("growth from zero"), every later point uses the difference formula. -/
def buildHistoryOldest : List RawDataPoint → List (Int × GrowthEntry)
  | [] => []
  | p :: rest =>
    (p.timestamp,
      { date := p.date, downloads := p.downloads, dailyGrowth := p.downloads,
        versions := p.versions }) ::
      buildHistoryAux p.downloads p.timestamp rest

/-- The strict variant's third phase as written: `validData` is iterated
from the last index (oldest) to the first (newest). -/
def buildHistory (validData : List RawDataPoint) : List (Int × GrowthEntry) :=
  buildHistoryOldest validData.reverse

/-- The daily growth figures of a validated series listed oldest first. -/
def dailyGrowths (olds : List RawDataPoint) : List Int :=
  (buildHistoryOldest olds).map fun e => e.2.dailyGrowth

/-- The rolling-average computation of the rendering script, shared by the
7-point and 30-point windows: for each index of the growth-rate series,
average the slice from `Math.max(0, i - windowSize + 1)` to `i` inclusive
and push `Math.round` of the average (the `reduce` with `+` and initial
value 0 is the slice's sum). -/
def rollingAverage (windowSize : Nat) (ys : List Int) : List Int :=
  (List.range ys.length).map fun (i : Nat) =>
    let startIdx : Nat := (max 0 ((i : Int) - (windowSize : Int) + 1)).toNat
    let windowValues := (ys.drop startIdx).take (i + 1 - startIdx)
    let sum : Int := windowValues.sum
    let avg : ℚ :=
      if 0 < windowValues.length then (sum : ℚ) / (windowValues.length : ℚ)
      else 0
    jsRound avg

/-- The rendering script's `rollingAverageData7Day` series. -/
def rollingAverageData7Day (ys : List Int) : List Int :=
  rollingAverage 7 ys

/-- The rendering script's `rollingAverageData30Day` series. -/
def rollingAverageData30Day (ys : List Int) : List Int :=
  rollingAverage 30 ys

/-- Phase two input of the strict variant: `rawData` sorted by timestamp
descending (`rawData.sort((a, b) => b.timestamp - a.timestamp)`). -/
def rawSorted (cs : List (Commit × FetchResult)) : List RawDataPoint :=
  sortByKeyDesc (fun p => p.timestamp) (extractLoop cs)

/-- The strict variant's validated series (`validData`). -/
def validData (cs : List (Commit × FetchResult)) : List RawDataPoint :=
  neighborFilter (rawSorted cs)

/-- The strict variant's final timestamp-keyed history, as the sequence of
key/value insertions its output loop performs. -/
def strictHistory (cs : List (Commit × FetchResult)) : List (Int × GrowthEntry) :=
  buildHistory (validData cs)

/-- Spec-side sequential policy, transcribed from the spec's words (the
refinement target for the sequential-filter claim): after the seeded first
acceptance, accept a candidate iff its downloads are at most
`lastValidDownloads`, updating the floor on acceptance. -/
def seqSpecAux (lastValid : Int) : List HistoryEntry → List HistoryEntry
  | [] => []
  | e :: rest =>
    if e.downloads ≤ lastValid then e :: seqSpecAux e.downloads rest
    else seqSpecAux lastValid rest

/-- Spec-side sequential policy: the first (newest) point is accepted
unconditionally and seeds the floor. -/
def seqSpec : List HistoryEntry → List HistoryEntry
  | [] => []
  | e :: rest => e :: seqSpecAux e.downloads rest

/-- Claim-side keep predicate of the neighbour policy, written from the
claim's words over indices of the timestamp-descending raw series: a point
is invalid iff its downloads exceed the immediate newer neighbour's
(index `i - 1`) or are less than the immediate older neighbour's (index
`i + 1`), each comparison applying only when that neighbour exists. -/
def claimKeep (raw : List RawDataPoint) (i : Nat) : Bool :=
  !((decide (0 < i) &&
      decide ((raw.getD (i - 1) default).downloads < (raw.getD i default).downloads)) ||
    (decide (i + 1 < raw.length) &&
      decide ((raw.getD i default).downloads < (raw.getD (i + 1) default).downloads)))

/-- Claim-side neighbour filter: keep exactly the points at claim-valid
indices, in order, with neighbours always taken from the raw series. -/
def claimFilter (raw : List RawDataPoint) : List RawDataPoint :=
  ((List.range raw.length).filter (claimKeep raw)).map fun i => raw.getD i default

/-- Validity of the point at index `i` of `l` when the point just before
`l` (if any) has downloads `prev`: the indexed form of the filter loop's
state, used to relate `neighborFilterAux` to index-based validity. -/
def validIn (prev : Option Int) (l : List RawDataPoint) (i : Nat) : Bool :=
  neighborValid
    (if i = 0 then prev else some ((l.getD (i - 1) default).downloads))
    ((l.getD i default).downloads)
    (if i + 1 < l.length then some ((l.getD (i + 1) default).downloads) else none)

/-- Invariant of the simple variant's filter state: the accumulated history
is non-increasing in downloads, the floor is at most every accepted
downloads value, and the history is empty until the first acceptance. -/
def SeqInv (s : SeqState) : Prop :=
  List.Chain' (fun a b => b.downloads ≤ a.downloads) s.history ∧
  (∀ e ∈ s.history, s.lastValidDownloads ≤ e.downloads) ∧
  (s.foundFirstEntry = false → s.history = [])

/-- A timestamp-descending raw series on which the neighbour policy keeps a
downward step: downloads 5, 3, 100, 8 newest to oldest.  The points with
downloads 3 and 100 are both rejected, the kept points read oldest to
newest are 8 then 5. -/
def rawCE1 : List RawDataPoint :=
  [⟨"h1", 40, 0, 5, []⟩, ⟨"h2", 30, 0, 3, []⟩, ⟨"h3", 20, 0, 100, []⟩,
   ⟨"h4", 10, 0, 8, []⟩]

/-- A commit sequence with two commits on the same calendar day (day 1)
where the first-encountered same-day point (hash `c2`, 20 downloads) is
rejected by the download filter and the later one (hash `c3`, 5 downloads)
is kept. -/
def csCE : List (Commit × FetchResult) :=
  [(⟨"c1", 2 * 86400000⟩, .parsed (some [("downloads", .num 10)])),
   (⟨"c2", 1 * 86400000 + 5000⟩, .parsed (some [("downloads", .num 20)])),
   (⟨"c3", 1 * 86400000⟩, .parsed (some [("downloads", .num 5)]))]

/-- A two-point validated series, oldest first: 100 downloads at time 0,
150 downloads ten days (864 000 000 ms) later — expected growth 5/day. -/
def psGrowthW : List RawDataPoint :=
  [⟨"old", 0, 0, 100, []⟩, ⟨"new", 864000000, 10, 150, []⟩]

/-- A filter state whose history already holds an entry for day 1. -/
def sDupW : SeqState :=
  { history := [⟨1, "e0", 50, []⟩], lastValidDownloads := 50,
    foundFirstEntry := true }

/-- A commit falling on day 1 (timestamp 86 400 007 ms). -/
def cDupW : Commit :=
  ⟨"c9", 86400000 + 7⟩

/-- A plugin record without a `downloads` field. -/
def noDownloadsRecord : PluginRecord :=
  [("1.0.0", .num 7)]

/-- A commit used to exercise the missing-`downloads` default. -/
def cNoDl : Commit :=
  ⟨"w1", 86400000⟩

/-- The snapshot record of the spec's version-exclusion example. -/
def betaSample : PluginRecord :=
  [("downloads", .num 10), ("updated", .str "x"), ("1.0.0", .num 5),
   ("1.1.0-beta", .num 2)]

theorem foldl_seqStep_found (ps : List HistoryEntry) :
    ∀ s : SeqState, s.foundFirstEntry = true →
      (ps.foldl seqStep s).history = s.history ++ seqSpecAux s.lastValidDownloads ps := by
  induction ps with
  | nil => intro s _; simp [seqSpecAux]
  | cons p ps ih =>
    intro s h
    simp only [List.foldl_cons, seqSpecAux]
    by_cases hlt : s.lastValidDownloads < p.downloads
    · rw [if_neg (by omega)]
      have hstep : seqStep s p = s := by
        simp [seqStep, h, hlt]
      rw [hstep, ih s h]
    · rw [if_pos (by omega)]
      have hstep : seqStep s p =
          { history := s.history ++ [p], lastValidDownloads := p.downloads,
            foundFirstEntry := s.foundFirstEntry } := by
        simp [seqStep, h, hlt]
      rw [hstep, ih _ (by simp [h])]
      simp

theorem seqSpecAux_sublist : ∀ (lv : Int) (ps : List HistoryEntry),
    (seqSpecAux lv ps).Sublist ps := by
  intro lv ps
  induction ps generalizing lv with
  | nil => simp [seqSpecAux]
  | cons p ps ih =>
    simp only [seqSpecAux]
    split
    · exact (ih p.downloads).cons₂ p
    · exact (ih lv).cons p

/-- C2.  Under the sequential policy, walking the raw points newest to
oldest, the first point is always accepted and seeds `lastValidDownloads`;
every later candidate is accepted iff its downloads are at most the floor,
which moves to the accepted value; rejected points are dropped and the
relative order of retained points is preserved (the output is the
spec-side `seqSpec` and a sublist of the input). -/
theorem c2_sequential_policy (ps : List HistoryEntry) :
    seqFilter ps = seqSpec ps ∧ (seqFilter ps).Sublist ps := by
  have heq : seqFilter ps = seqSpec ps := by
    cases ps with
    | nil => rfl
    | cons p ps =>
      have hstep : seqStep {} p =
          { history := [p], lastValidDownloads := p.downloads,
            foundFirstEntry := true } := by
        simp [seqStep]
      simp only [seqFilter, List.foldl_cons, hstep, seqSpec]
      rw [foldl_seqStep_found ps _ rfl]
      simp
  refine ⟨heq, ?_⟩
  rw [heq]
  cases ps with
  | nil => simp [seqSpec]
  | cons p ps => exact (seqSpecAux_sublist p.downloads ps).cons₂ p

theorem seqStep_SeqInv {s : SeqState} (e : HistoryEntry) (h : SeqInv s) :
    SeqInv (seqStep s e) := by
  obtain ⟨hchain, hfloor, hempty⟩ := h
  unfold SeqInv seqStep
  split_ifs with hf hlt
  · rw [hempty hf]
    exact ⟨by simp, by simp, by simp⟩
  · exact ⟨hchain, hfloor, hempty⟩
  · dsimp only
    refine ⟨?_, ?_, fun hcontra => absurd hcontra hf⟩
    · rw [List.chain'_append]
      refine ⟨hchain, List.chain'_singleton e, ?_⟩
      intro x hx y hy
      simp only [List.head?_cons, Option.mem_def, Option.some.injEq] at hy
      subst hy
      have hxmem : x ∈ s.history := List.mem_of_mem_getLast? hx
      have := hfloor x hxmem
      omega
    · intro x hx
      simp only [List.mem_append, List.mem_singleton] at hx
      rcases hx with hx | hx
      · have := hfloor x hx
        omega
      · subst hx
        simp

theorem part0Step_SeqInv {s : SeqState} (e : HistoryEntry) (h : SeqInv s) :
    SeqInv (part0Step s e) := by
  unfold part0Step
  split
  · exact h
  · exact seqStep_SeqInv e h

theorem part0Loop_SeqInv (cs : List (Commit × FetchResult)) :
    ∀ s : SeqState, SeqInv s → SeqInv (part0Loop s cs) := by
  induction cs with
  | nil => intro s h; exact h
  | cons hd tl ih =>
    intro s h
    obtain ⟨c, fr⟩ := hd
    cases fr with
    | err => exact ih s h
    | parsed o =>
      cases o with
      | none => exact h
      | some pd => exact ih _ (part0Step_SeqInv _ h)

theorem foldl_seqStep_SeqInv (ps : List HistoryEntry) :
    ∀ s : SeqState, SeqInv s → SeqInv (ps.foldl seqStep s) := by
  induction ps with
  | nil => intro s h; exact h
  | cons p ps ih => intro s h; exact ih _ (seqStep_SeqInv p h)

theorem SeqInv_init : SeqInv {} :=
  ⟨List.chain'_nil, by simp, fun _ => rfl⟩

/-- C1 (amended).  Under the sequential policy — both as the isolated
filter and as run inside the simple variant's full loop — the validated
history, read oldest to newest (i.e. the processing-order output
reversed), has non-decreasing download counts.  Under the neighbour policy
this fails: see the counterexample. -/
theorem c1_sequential_monotone (es : List HistoryEntry)
    (cs : List (Commit × FetchResult)) :
    List.Chain' (fun a b => a.downloads ≤ b.downloads) ((seqFilter es).reverse) ∧
    List.Chain' (fun a b => a.downloads ≤ b.downloads) ((part0History cs).reverse) := by
  constructor
  · rw [List.chain'_reverse]
    exact (foldl_seqStep_SeqInv es {} SeqInv_init).1
  · rw [List.chain'_reverse]
    exact (part0Loop_SeqInv cs {} SeqInv_init).1

/-- C1 (counterexample).  Under the neighbour policy the invariant fails:
on the timestamp-descending raw series with downloads 5, 3, 100, 8 the
filter keeps the points with downloads 5 (newest) and 8 (oldest), so read
oldest to newest the validated downloads are 8 then 5 — decreasing. -/
theorem c1_counterexample :
    ((neighborFilter rawCE1).reverse.map fun p => p.downloads) = [8, 5] ∧
    ¬ List.Chain' (fun a b => a.downloads ≤ b.downloads)
        ((neighborFilter rawCE1).reverse) := by
  constructor
  · decide
  · intro h
    have hl : (neighborFilter rawCE1).reverse =
        [⟨"h4", 10, 0, 8, []⟩, ⟨"h1", 40, 0, 5, []⟩] := by decide
    rw [hl] at h
    exact absurd (List.chain'_cons.mp h).1 (by decide)

theorem extractLoop_stop (pre : List (Commit × FetchResult)) :
    ∀ (c : Commit) (rest rest' : List (Commit × FetchResult)),
      extractLoop (pre ++ (c, .parsed none) :: rest) =
        extractLoop (pre ++ (c, .parsed none) :: rest') := by
  induction pre with
  | nil => intro c rest rest'; rfl
  | cons hd tl ih =>
    intro c rest rest'
    obtain ⟨c', fr⟩ := hd
    cases fr with
    | err => simpa [extractLoop] using ih c rest rest'
    | parsed o =>
      cases o with
      | none => simp [extractLoop]
      | some pd => simp [extractLoop, ih c rest rest']

theorem part0Loop_stop (pre : List (Commit × FetchResult)) :
    ∀ (s : SeqState) (c : Commit) (rest rest' : List (Commit × FetchResult)),
      part0Loop s (pre ++ (c, .parsed none) :: rest) =
        part0Loop s (pre ++ (c, .parsed none) :: rest') := by
  induction pre with
  | nil => intro s c rest rest'; rfl
  | cons hd tl ih =>
    intro s c rest rest'
    obtain ⟨c', fr⟩ := hd
    cases fr with
    | err => simpa [part0Loop] using ih s c rest rest'
    | parsed o =>
      cases o with
      | none => simp [part0Loop]
      | some pd => simp [part0Loop, ih _ c rest rest']

/-- C7.  In both pipelines, a successfully parsed snapshot without the
plugin key stops processing entirely: the result does not depend on any
strictly older commit, and from the stopping commit on no further data
point is produced (the loop returns normally with what it has). -/
theorem c7_absence_stops (pre : List (Commit × FetchResult)) (c : Commit)
    (rest rest' : List (Commit × FetchResult)) (s : SeqState) :
    extractLoop (pre ++ (c, .parsed none) :: rest) =
      extractLoop (pre ++ (c, .parsed none) :: rest') ∧
    extractLoop ((c, .parsed none) :: rest) = [] ∧
    part0Loop s (pre ++ (c, .parsed none) :: rest) =
      part0Loop s (pre ++ (c, .parsed none) :: rest') ∧
    part0Loop s ((c, .parsed none) :: rest) = s :=
  ⟨extractLoop_stop pre c rest rest', rfl,
   part0Loop_stop pre s c rest rest', rfl⟩

/-- C8.  The extracted version map holds exactly the record's keys other
than the reserved keys `downloads` and `updated`; the strict variant also
drops every key ending in the literal suffix `-beta`.  On the spec's
example snapshot the strict map is `{"1.0.0": 5}` and the inclusive map
additionally keeps `"1.1.0-beta": 2`. -/
theorem c8_version_extraction :
    (∀ (pd : PluginRecord) (k : String) (v : JVal),
        (k, v) ∈ versionsStrict pd ↔
          ((k, v) ∈ pd ∧ k ≠ "downloads" ∧ k ≠ "updated" ∧
            jsEndsWith k "-beta" = false)) ∧
    (∀ (pd : PluginRecord) (k : String) (v : JVal),
        (k, v) ∈ versionsInclusive pd ↔
          ((k, v) ∈ pd ∧ k ≠ "downloads" ∧ k ≠ "updated")) ∧
    versionsStrict betaSample = [("1.0.0", .num 5)] ∧
    versionsInclusive betaSample =
      [("1.0.0", .num 5), ("1.1.0-beta", .num 2)] := by
  refine ⟨?_, ?_, by decide, by decide⟩
  · intro pd k v
    simp [versionsStrict, List.mem_filter, Bool.and_eq_true, Bool.not_eq_true',
      and_assoc]
  · intro pd k v
    simp [versionsInclusive, List.mem_filter, Bool.and_eq_true,
      Bool.not_eq_true', and_assoc]

/-- C10.  When the plugin key is present but the record's `downloads`
field is absent or carries the falsy value 0, both pipelines treat the
download count as 0 and still process the commit as a normal data point:
the strict loop pushes a raw point for it and the simple loop runs its
ordinary step on it. -/
theorem c10_missing_downloads (pd : PluginRecord) (c : Commit)
    (rest : List (Commit × FetchResult)) (s : SeqState)
    (h : pd.lookup "downloads" = none ∨ pd.lookup "downloads" = some (.num 0)) :
    (mkRawPoint c pd).downloads = 0 ∧
    extractLoop ((c, .parsed (some pd)) :: rest) =
      mkRawPoint c pd :: extractLoop rest ∧
    (mkEntry c pd).downloads = 0 ∧
    part0Loop s ((c, .parsed (some pd)) :: rest) =
      part0Loop (part0Step s (mkEntry c pd)) rest := by
  have hdl : jsDownloads pd = 0 := by
    unfold jsDownloads
    rcases h with h | h <;> rw [h]
  exact ⟨hdl, rfl, hdl, rfl⟩

theorem c10_missing_downloads_witness :
    noDownloadsRecord.lookup "downloads" = none ∧
    ((mkRawPoint cNoDl noDownloadsRecord).downloads = 0 ∧
      extractLoop ((cNoDl, .parsed (some noDownloadsRecord)) :: []) =
        mkRawPoint cNoDl noDownloadsRecord :: extractLoop [] ∧
      (mkEntry cNoDl noDownloadsRecord).downloads = 0 ∧
      part0Loop {} ((cNoDl, .parsed (some noDownloadsRecord)) :: []) =
        part0Loop (part0Step {} (mkEntry cNoDl noDownloadsRecord)) []) :=
  ⟨by decide,
   c10_missing_downloads noDownloadsRecord cNoDl [] {} (Or.inl (by decide))⟩

theorem part0Step_nodup {s : SeqState} (e : HistoryEntry)
    (h : (s.history.map fun x => x.date).Nodup) :
    (((part0Step s e).history).map fun x => x.date).Nodup := by
  unfold part0Step
  split
  · exact h
  · next hany =>
    have hfresh : e.date ∉ s.history.map fun x => x.date := by
      intro hmem
      simp only [List.mem_map] at hmem
      obtain ⟨old, hold, hdate⟩ := hmem
      have : s.history.any (fun old => old.date == e.date) = true :=
        List.any_eq_true.mpr ⟨old, hold, by simp [hdate]⟩
      exact hany this
    unfold seqStep
    split_ifs
    · simp [List.nodup_append, h, hfresh]
    · exact h
    · simp [List.nodup_append, h, hfresh]

theorem part0Loop_nodup (cs : List (Commit × FetchResult)) :
    ∀ s : SeqState, ((s.history.map fun x => x.date).Nodup) →
      (((part0Loop s cs).history).map fun x => x.date).Nodup := by
  induction cs with
  | nil => intro s h; exact h
  | cons hd tl ih =>
    intro s h
    obtain ⟨c, fr⟩ := hd
    cases fr with
    | err => exact ih s h
    | parsed o =>
      cases o with
      | none => exact h
      | some pd => exact ih _ (part0Step_nodup _ h)

/-- C6 (amended).  For every input commit sequence the simple variant's
final history has pairwise-distinct calendar dates, and a commit whose
calendar day already has an entry in the accumulated history is skipped
entirely (no averaging, no overwriting).  The original claim's stronger
"exactly the first point encountered on a day is kept" fails when that
first point is rejected by the download filter — see the counterexample. -/
theorem c6_day_dedup (cs : List (Commit × FetchResult)) (s : SeqState)
    (c : Commit) (pd : PluginRecord) (rest : List (Commit × FetchResult)) :
    ((part0History cs).map fun e => e.date).Nodup ∧
    ((s.history.any fun old => old.date == dayOf c.timestamp) = true →
      part0Loop s ((c, .parsed (some pd)) :: rest) = part0Loop s rest) := by
  constructor
  · exact part0Loop_nodup cs {} (by simp)
  · intro hany
    have hstep : part0Step s (mkEntry c pd) = s := by
      unfold part0Step
      rw [if_pos]
      exact hany
    show part0Loop (part0Step s (mkEntry c pd)) rest = part0Loop s rest
    rw [hstep]

theorem c6_day_dedup_witness :
    ((sDupW.history.any fun old => old.date == dayOf cDupW.timestamp) = true) ∧
    part0Loop sDupW ((cDupW, .parsed (some [])) :: []) = part0Loop sDupW [] :=
  ⟨by decide, (c6_day_dedup [] sDupW cDupW [] []).2 (by decide)⟩

/-- C6 (counterexample).  On `csCE` the three commits fall on days 2, 1, 1;
the first-encountered day-1 commit (hash `c2`, 20 downloads) is rejected by
the download filter, and the later day-1 commit (hash `c3`, 5 downloads) is
kept — so the kept entry of a day is not always the first one encountered,
and a later same-day point is not always skipped. -/
theorem c6_counterexample :
    ((part0History csCE).map fun e => e.hash) = ["c1", "c3"] ∧
    (csCE.map fun x => dayOf x.1.timestamp) = [2, 1, 1] ∧
    ¬ ((part0History csCE).map fun e => e.hash) = ["c1", "c2"] := by
  refine ⟨by decide, by decide, by decide⟩

theorem validIn_zero (prev : Option Int) (p : RawDataPoint)
    (rest : List RawDataPoint) :
    validIn prev (p :: rest) 0 =
      neighborValid prev p.downloads ((rest.head?).map fun q => q.downloads) := by
  unfold validIn
  cases rest <;> simp [List.getD_cons_zero, List.getD_cons_succ]

theorem validIn_cons (prev : Option Int) (p : RawDataPoint)
    (rest : List RawDataPoint) (i : Nat) :
    validIn prev (p :: rest) (i + 1) = validIn (some p.downloads) rest i := by
  unfold validIn
  cases i with
  | zero =>
    by_cases hlen : 0 + 1 < rest.length <;>
      simp [hlen, List.getD_cons_succ, List.getD_cons_zero,
        Nat.succ_lt_succ_iff]
  | succ j =>
    by_cases hlen : j + 1 + 1 < rest.length <;>
      simp [hlen, List.getD_cons_succ, List.getD_cons_zero,
        Nat.succ_lt_succ_iff, Nat.succ_sub_one]

theorem validIn_none_eq_claimKeep (raw : List RawDataPoint) (i : Nat) :
    validIn none raw i = claimKeep raw i := by
  unfold validIn claimKeep neighborValid
  cases i with
  | zero =>
    by_cases hlen : 0 + 1 < raw.length <;> simp [hlen, Bool.not_or]
  | succ j =>
    have h0 : decide (0 < j + 1) = true := by simp
    by_cases hlen : j + 1 + 1 < raw.length <;>
      simp [hlen, h0, Bool.not_or, Nat.succ_sub_one]

theorem neighborFilterAux_eq (l : List RawDataPoint) :
    ∀ prev : Option Int,
      neighborFilterAux prev l =
        ((List.range l.length).filter (validIn prev l)).map
          fun i => l.getD i default := by
  induction l with
  | nil => intro prev; simp [neighborFilterAux]
  | cons p rest ih =>
    intro prev
    rw [List.length_cons, List.range_succ_eq_map, List.filter_cons]
    rw [validIn_zero, List.filter_map]
    have hcomp : (validIn prev (p :: rest)) ∘ Nat.succ =
        validIn (some p.downloads) rest := by
      funext i
      simp [Function.comp, validIn_cons]
    rw [hcomp]
    simp only [neighborFilterAux]
    by_cases hv : neighborValid prev p.downloads
        ((rest.head?).map fun q => q.downloads) = true
    · rw [if_pos hv, if_pos hv]
      simp only [List.map_cons, List.getD_cons_zero, List.map_map]
      rw [ih (some p.downloads)]
      congr 1
    · rw [if_neg hv, if_neg hv]
      simp only [List.map_map]
      rw [ih (some p.downloads)]
      congr 1

/-- C3.  The neighbour policy keeps exactly the points of the
timestamp-descending raw series whose index is claim-valid: a point is
invalid iff its downloads exceed the immediate newer neighbour's (previous
index) or are less than the immediate older neighbour's (next index), each
comparison applying only when that neighbour exists; the first and last
points face one comparison each, neighbours are always read from the raw
series (a rejection never changes another point's comparisons), and the
relative order is preserved. -/
theorem c3_neighbor_policy (raw : List RawDataPoint) :
    neighborFilter raw = claimFilter raw := by
  rw [neighborFilter, neighborFilterAux_eq, claimFilter]
  congr 1
  apply List.filter_congr
  intro i _
  exact validIn_none_eq_claimKeep raw i

theorem mem_insertKey {α : Type} (key : α → Int) (a x : α) :
    ∀ l : List α, x ∈ insertKey key a l ↔ x = a ∨ x ∈ l := by
  intro l
  induction l with
  | nil => simp [insertKey]
  | cons b l ih =>
    simp only [insertKey]
    split
    · simp [List.mem_cons]
    · simp only [List.mem_cons, ih]
      tauto

theorem pairwise_insertKey {α : Type} (key : α → Int) (a : α) :
    ∀ l : List α, List.Pairwise (fun x y => key x ≤ key y) l →
      List.Pairwise (fun x y => key x ≤ key y) (insertKey key a l) := by
  intro l
  induction l with
  | nil => intro _; simp [insertKey]
  | cons b l ih =>
    intro hp
    rw [List.pairwise_cons] at hp
    obtain ⟨hb, hl⟩ := hp
    simp only [insertKey]
    split
    · next hab =>
      rw [List.pairwise_cons]
      refine ⟨?_, List.pairwise_cons.mpr ⟨hb, hl⟩⟩
      intro x hx
      rcases List.mem_cons.mp hx with hx | hx
      · subst hx; exact hab
      · exact le_trans hab (hb x hx)
    · next hab =>
      rw [List.pairwise_cons]
      refine ⟨?_, ih hl⟩
      intro x hx
      rcases (mem_insertKey key a x l).mp hx with hx | hx
      · subst hx; exact le_of_not_le hab
      · exact hb x hx

theorem pairwise_sortByKey {α : Type} (key : α → Int) :
    ∀ l : List α, List.Pairwise (fun x y => key x ≤ key y) (sortByKey key l) := by
  intro l
  induction l with
  | nil => simp [sortByKey]
  | cons a l ih => exact pairwise_insertKey key a _ ih

theorem neighborFilterAux_sublist (l : List RawDataPoint) :
    ∀ prev : Option Int, (neighborFilterAux prev l).Sublist l := by
  induction l with
  | nil => intro prev; simp [neighborFilterAux]
  | cons p rest ih =>
    intro prev
    simp only [neighborFilterAux]
    split
    · exact (ih _).cons₂ p
    · exact (ih _).cons p

theorem buildHistoryAux_map_fst (l : List RawDataPoint) :
    ∀ pd pt : Int,
      (buildHistoryAux pd pt l).map Prod.fst = l.map fun p => p.timestamp := by
  induction l with
  | nil => intro pd pt; rfl
  | cons p rest ih =>
    intro pd pt
    simp only [buildHistoryAux, List.map_cons]
    rw [ih]

theorem buildHistoryOldest_map_fst (l : List RawDataPoint) :
    (buildHistoryOldest l).map Prod.fst = l.map fun p => p.timestamp := by
  cases l with
  | nil => rfl
  | cons p rest =>
    simp only [buildHistoryOldest, List.map_cons]
    rw [buildHistoryAux_map_fst]

/-- C9.  Both final outputs are sorted ascending regardless of the
newest-first processing order: the simple variant's history array is in
ascending calendar-date order after its sort, and the strict variant's
timestamp-keyed entries are produced in ascending timestamp order (its
output loop walks the timestamp-descending validated series backwards). -/
theorem c9_output_sorted (cs : List (Commit × FetchResult)) :
    List.Sorted (· ≤ ·) ((part0Output cs).map fun e => e.date) ∧
    List.Sorted (· ≤ ·) ((strictHistory cs).map Prod.fst) := by
  constructor
  · unfold List.Sorted
    rw [List.pairwise_map]
    exact pairwise_sortByKey (fun e : HistoryEntry => e.date) (part0History cs)
  · rw [strictHistory, buildHistory, buildHistoryOldest_map_fst]
    have hdesc : List.Pairwise
        (fun a b : RawDataPoint => b.timestamp ≤ a.timestamp) (rawSorted cs) := by
      have h := pairwise_sortByKey
        (fun p : RawDataPoint => -(p.timestamp)) (extractLoop cs)
      rw [rawSorted, sortByKeyDesc]
      exact h.imp (by intro a b hab; omega)
    have hsub : (validData cs).Sublist (rawSorted cs) :=
      neighborFilterAux_sublist _ none
    have hv : List.Pairwise
        (fun a b : RawDataPoint => b.timestamp ≤ a.timestamp) (validData cs) :=
      List.Pairwise.sublist hsub hdesc
    have hrev : List.Pairwise
        (fun a b : RawDataPoint => a.timestamp ≤ b.timestamp)
        (validData cs).reverse := by
      rw [List.pairwise_reverse]
      exact hv
    unfold List.Sorted
    rw [List.pairwise_map]
    exact hrev

theorem buildHistoryAux_growth_getD (l : List RawDataPoint) :
    ∀ (q : RawDataPoint) (i : Nat), i < l.length →
      (((buildHistoryAux q.downloads q.timestamp l).map
          fun e => e.2.dailyGrowth).getD i 0) =
        (let prev := (q :: l).getD i default
         let cur := l.getD i default
         let daysDifference : ℚ :=
           ((cur.timestamp - prev.timestamp : Int) : ℚ) / (1000 * 60 * 60 * 24)
         if 0 < daysDifference then
           jsRound (((cur.downloads - prev.downloads : Int) : ℚ) / daysDifference)
         else 0) := by
  induction l with
  | nil => intro q i h; exact absurd h (by simp)
  | cons p rest ih =>
    intro q i h
    cases i with
    | zero =>
      simp only [buildHistoryAux, List.map_cons, List.getD_cons_zero]
    | succ j =>
      have hj : j < rest.length := by
        simpa [Nat.succ_lt_succ_iff] using h
      simp only [buildHistoryAux, List.map_cons, List.getD_cons_succ]
      exact ih p j hj

/-- C4.  In the strict variant's history loop, iterating the validated
points oldest to newest, the first point's `dailyGrowth` equals its raw
download count; each later point's `dailyGrowth` is
`Math.round((downloads_i - downloads_(i-1)) / daysDifference)` with
`daysDifference = (timestamp_i - timestamp_(i-1)) / 86400000` whenever
`daysDifference` is positive, and 0 when `daysDifference ≤ 0` (a zero
elapsed time never fails). -/
theorem c4_daily_growth (ps : List RawDataPoint) (i : Nat) (h : i < ps.length) :
    (dailyGrowths ps).getD i 0 =
      if i = 0 then (ps.getD 0 default).downloads
      else
        (let prev := ps.getD (i - 1) default
         let cur := ps.getD i default
         let daysDifference : ℚ :=
           ((cur.timestamp - prev.timestamp : Int) : ℚ) / 86400000
         if 0 < daysDifference then
           jsRound (((cur.downloads - prev.downloads : Int) : ℚ) / daysDifference)
         else 0) := by
  have hc : ((1000 * 60 * 60 * 24 : Nat) : ℚ) = (86400000 : ℚ) := by norm_num
  cases ps with
  | nil => exact absurd h (by simp)
  | cons p rest =>
    cases i with
    | zero =>
      simp [dailyGrowths, buildHistoryOldest]
    | succ j =>
      have hj : j < rest.length := by
        simpa [Nat.succ_lt_succ_iff] using h
      simp only [dailyGrowths, buildHistoryOldest, List.map_cons,
        List.getD_cons_succ]
      rw [buildHistoryAux_growth_getD rest p j hj]
      norm_num

theorem take_sum_getD (l : List Int) : ∀ m : Nat,
    (l.take m).sum = ∑ j ∈ Finset.range m, l.getD j 0 := by
  induction l with
  | nil =>
    intro m
    simp [List.getD]
  | cons a l ih =>
    intro m
    cases m with
    | zero => simp
    | succ m =>
      rw [List.take_succ_cons, List.sum_cons, ih, Finset.sum_range_succ']
      simp only [List.getD_cons_succ, List.getD_cons_zero]
      ring

theorem getD_drop_int (l : List Int) : ∀ s j : Nat,
    (l.drop s).getD j 0 = l.getD (s + j) 0 := by
  induction l with
  | nil => intro s j; simp [List.getD]
  | cons a l ih =>
    intro s j
    cases s with
    | zero => simp
    | succ s =>
      rw [List.drop_succ_cons, ih s j]
      have hidx : s + 1 + j = (s + j) + 1 := by omega
      rw [hidx, List.getD_cons_succ]

theorem getD_map_range (f : Nat → Int) (n i : Nat) (h : i < n) :
    (((List.range n).map f).getD i 0) = f i := by
  rw [List.getD_eq_getElem?_getD, List.getElem?_map, List.getElem?_range h]
  rfl

/-- C5 (amended).  For each window size (7 or 30), the rolling-average
value at index `i` of a growth-rate series is `Math.round` of the
arithmetic mean of the values at indices `max(0, i - w + 1)` through `i`
inclusive — a trailing window that shrinks near the start, with no padding
and no look-ahead.  (The original claim omits the rounding: the pushed
value is `Math.round(avg)`, not the exact mean — see the counterexample.) -/
theorem c5_rolling_average (w : Nat) (hw : w = 7 ∨ w = 30) (ys : List Int)
    (i : Nat) (h : i < ys.length) :
    (rollingAverage w ys).getD i 0 =
      jsRound
        ((∑ j ∈ Finset.Icc ((max 0 ((i : Int) - (w : Int) + 1)).toNat) i,
            ((ys.getD j 0 : Int) : ℚ)) /
          (((i - (max 0 ((i : Int) - (w : Int) + 1)).toNat + 1 : Nat)) : ℚ)) := by
  have hw1 : 1 ≤ w := by rcases hw with h7 | h30 <;> omega
  have hsle : (max 0 ((i : Int) - (w : Int) + 1)).toNat ≤ i := by
    have h1 : (max 0 ((i : Int) - (w : Int) + 1)) ≤ (i : Int) := by
      apply max_le
      · exact Int.natCast_nonneg i
      · omega
    exact Int.toNat_le.mpr h1
  unfold rollingAverage
  rw [getD_map_range _ _ _ h]
  set s := (max 0 ((i : Int) - (w : Int) + 1)).toNat with hs
  dsimp only
  have hlen : ((ys.drop s).take (i + 1 - s)).length = i + 1 - s := by
    rw [List.length_take, List.length_drop]
    omega
  rw [hlen, if_pos (show 0 < i + 1 - s by omega)]
  have hsum : ((ys.drop s).take (i + 1 - s)).sum =
      ∑ j ∈ Finset.Icc s i, ys.getD j 0 := by
    rw [take_sum_getD, ← Nat.Ico_succ_right, Finset.sum_Ico_eq_sum_range]
    exact Finset.sum_congr rfl fun j _ => getD_drop_int ys s j
  congr 1
  rw [hsum]
  have hc : i + 1 - s = i - s + 1 := by omega
  rw [hc]
  push_cast
  ring

/-- C5 (witness).  The spec's own instance: a length-10 series at index 9
with the 7-point window averages indices 3 through 9. -/
theorem c5_rolling_average_witness :
    ((7 : Nat) = 7 ∨ (7 : Nat) = 30) ∧
    9 < ([0, 1, 2, 3, 4, 5, 6, 7, 8, 9] : List Int).length ∧
    (rollingAverage 7 [0, 1, 2, 3, 4, 5, 6, 7, 8, 9]).getD 9 0 =
      jsRound
        ((∑ j ∈ Finset.Icc ((max 0 ((9 : Int) - (7 : Int) + 1)).toNat) 9,
            ((([0, 1, 2, 3, 4, 5, 6, 7, 8, 9] : List Int).getD j 0 : Int) : ℚ)) /
          (((9 - (max 0 ((9 : Int) - (7 : Int) + 1)).toNat + 1 : Nat)) : ℚ)) :=
  ⟨Or.inl rfl, by decide,
   c5_rolling_average 7 (Or.inl rfl) [0, 1, 2, 3, 4, 5, 6, 7, 8, 9] 9 (by decide)⟩

section
attribute [local semireducible] Rat.add Rat.mul Rat.inv Rat.sub

/-- C5 (counterexample).  On the growth-rate series `[0, 1]` the 7-point
rolling average at index 1 is `Math.round(1/2) = 1`, not the arithmetic
mean `1/2` the claim states. -/
theorem c5_counterexample :
    ¬ (((rollingAverageData7Day [0, 1]).getD 1 0 : ℚ) =
        (((0 : Int) : ℚ) + ((1 : Int) : ℚ)) / 2) := by
  have h : (rollingAverageData7Day [0, 1]).getD 1 0 = 1 := by decide
  rw [h]
  norm_num

/-- C4 (witness).  Two points ten days apart with downloads 100 then 150:
the growth figure at index 1 is `round(50 / 10) = 5`, the spec's §8
example. -/
theorem c4_daily_growth_witness :
    1 < psGrowthW.length ∧ (dailyGrowths psGrowthW).getD 1 0 = 5 := by
  refine ⟨by decide, ?_⟩
  rw [c4_daily_growth psGrowthW 1 (by decide)]
  decide

end
